import Mathlib

/-!
Shallow embedding of the Huffman compression core of `app.py`
(Flask-compression).  Text is modelled as `List Char`, bit-strings as
`List Bool` (`false` = the character `0`, `true` = `1`), byte sequences
as `List Nat` (each entry a byte value).  Functions that can raise in
Python return `Option`.
-/

/-- `int(s, 2)` on a bit-string: most-significant-bit-first value. -/
def bitsToNat (bits : List Bool) : Nat :=
  bits.foldl (fun acc b => 2 * acc + (if b then 1 else 0)) 0

/-- `f"{n:08b}"` as bits, for `n < 256` (the callers pass 1..8):
the 8-bit most-significant-bit-first binary representation of `n`. -/
def toBits8 (n : Nat) : List Bool :=
  (List.range 8).map fun i => Nat.testBit n (7 - i)

/-- The `HuffmanNode` class: `char` is `None` exactly on merged
(internal) nodes, which carry two children; leaves carry a symbol.
Following the design note of the spec, the reference-linked objects are
embedded as an immutable tagged variant. -/
inductive HuffmanNode where
  | leaf (char : Char) (freq : Nat)
  | internal (freq : Nat) (left right : HuffmanNode)
deriving DecidableEq

/-- The `freq` field (on both node shapes). -/
def HuffmanNode.freq : HuffmanNode → Nat
  | .leaf _ f => f
  | .internal f _ _ => f

/-- `HuffmanNode.__lt__` compares `freq` only; the heap order relation. -/
def nodeLE (a b : HuffmanNode) : Prop := a.freq ≤ b.freq

instance : DecidableRel nodeLE := fun a b => Nat.decLe a.freq b.freq

/-- `heapq.heapify`: models the CPython binary min-heap (ordered by
`HuffmanNode.__lt__`, i.e. by `freq`) as a list sorted ascending by
`freq`; `heappop` is then "take the head".  Ties among equal
frequencies sit in implementation-defined order in CPython as well. -/
def heapify (l : List HuffmanNode) : List HuffmanNode :=
  List.insertionSort nodeLE l

/-- `heapq.heappush`: ordered insertion into the sorted-list heap model. -/
def heappush (l : List HuffmanNode) (x : HuffmanNode) : List HuffmanNode :=
  List.orderedInsert nodeLE x l

/-- `build_frequency_dict` / `Counter(text)`: counts per character, in
first-occurrence order (Python dict insertion order). -/
def addCount : List (Char × Nat) → Char → List (Char × Nat)
  | [], c => [(c, 1)]
  | (k, v) :: rest, c =>
      if k = c then (k, v + 1) :: rest else (k, v) :: addCount rest c

def build_frequency_dict (text : List Char) : List (Char × Nat) :=
  text.foldl addCount []

/-- The `while len(priority_queue) > 1` merge loop of
`build_huffman_tree`, followed by `priority_queue[0]`: on an empty
queue the indexing raises (`none`); otherwise the last remaining node
is the root.  `merged = HuffmanNode(None, left.freq + right.freq)`
with `left`/`right` as children.  The fuel argument only bounds the
recursion; each merge shrinks the queue by one, so the initial queue
length (passed below) always suffices and the fuel-exhausted branch is
unreachable from `build_huffman_tree`. -/
def huffLoop : Nat → List HuffmanNode → Option HuffmanNode
  | _, [] => none
  | _, [n] => some n
  | 0, _ :: _ :: _ => none
  | fuel + 1, a :: b :: rest =>
      huffLoop fuel (heappush rest (HuffmanNode.internal (a.freq + b.freq) a b))

def build_huffman_tree (frequency : List (Char × Nat)) : Option HuffmanNode :=
  huffLoop (heapify (frequency.map fun p => HuffmanNode.leaf p.1 p.2)).length
    (heapify (frequency.map fun p => HuffmanNode.leaf p.1 p.2))

/-- `build_huffman_codes`: depth-first walk accumulating the path
bit-string; only nodes with `char is not None` (leaves) contribute an
entry, in traversal order (the order the Python dict is filled in). -/
def build_huffman_codes : HuffmanNode → List Bool → List (Char × List Bool)
  | .leaf c _, code => [(c, code)]
  | .internal _ l r, code =>
      build_huffman_codes l (code ++ [false]) ++
        build_huffman_codes r (code ++ [true])

/-- Python dict lookup `huffman_codes[char]` on the entry list: the
last write wins, and a missing key raises (`none`). -/
def dictGet (codes : List (Char × List Bool)) (c : Char) : Option (List Bool) :=
  (codes.reverse.find? fun p => p.1 = c).map Prod.snd

/-- `encode_text`: concatenates the code of each character; raises
(`none`) on a character absent from the table (Python `KeyError`). -/
def encode_text (text : List Char) (codes : List (Char × List Bool)) :
    Option (List Bool) :=
  match text with
  | [] => some []
  | c :: rest => do
      pure ((← dictGet codes c) ++ (← encode_text rest codes))

/-- `pad_encoded_text`: appends `8 - len % 8` zero filler bits (always
1..8, in particular 8 when already aligned) and prepends that count as
an 8-bit field. -/
def pad_encoded_text (encoded : List Bool) : List Bool :=
  let extra_padding := 8 - encoded.length % 8
  toBits8 extra_padding ++ encoded ++ List.replicate extra_padding false

/-- Splits a bit-string into consecutive 8-bit groups (the
`range(0, len, 8)` loop of `get_byte_array`). -/
def chunks8 : List Bool → List (List Bool)
  | [] => []
  | b1 :: b2 :: b3 :: b4 :: b5 :: b6 :: b7 :: b8 :: rest =>
      [b1, b2, b3, b4, b5, b6, b7, b8] :: chunks8 rest
  | l => [l]

/-- `get_byte_array`: raises `ValueError` (`none`) when the length is
not a multiple of 8, else the `int(byte, 2)` value of each 8-bit group. -/
def get_byte_array (padded : List Bool) : Option (List Nat) :=
  if padded.length % 8 ≠ 0 then none
  else some ((chunks8 padded).map bitsToNat)

/-- `remove_padding`: first 8 bits are the padding count, the rest is
`encoded_text[:-extra]`.  the Python slice `[:-extra]` is empty when
`extra = 0` (`[:-0] == [:0]`) and when `extra ≥ len`; `int("", 2)` on
an empty input raises (`none`). -/
def remove_padding (padded : List Bool) : Option (List Bool) :=
  if padded.isEmpty then none
  else
    let extra_padding := bitsToNat (padded.take 8)
    let encoded := padded.drop 8
    some (if extra_padding = 0 then []
          else encoded.take (encoded.length - extra_padding))

/-- Lookup in `reverse_huffman_codes = {code: char for char, code in
huffman_codes.items()}`: the last entry with this code wins. -/
def revLookup (codes : List (Char × List Bool)) (cand : List Bool) :
    Option Char :=
  (codes.reverse.find? fun p => p.2 = cand).map Prod.fst

/-- The scanning loop of `decode_text`: state is the accumulated
candidate `current_code` and the output `decoded_text`; returns both,
final candidate included. -/
def decodeAux (codes : List (Char × List Bool)) :
    List Bool → List Bool → List Char → List Char × List Bool
  | [], cur, out => (out, cur)
  | b :: rest, cur, out =>
      let cur' := cur ++ [b]
      match revLookup codes cur' with
      | some c => decodeAux codes rest [] (out ++ [c])
      | none => decodeAux codes rest cur' out

/-- `decode_text`: returns `decoded_text`, silently dropping whatever
candidate remains at end of input. -/
def decode_text (encoded : List Bool) (codes : List (Char × List Bool)) :
    List Char :=
  (decodeAux codes encoded [] []).1

def squote : Char := Char.ofNat 39

def lbrace : Char := Char.ofNat 123

def rbrace : Char := Char.ofNat 125

/-- The characters of `str(huffman_codes)` for one `char: code` entry:
quoted key, colon, space, quoted code (the codes and single
printable keys at stake have no escapes). -/
def entryChars (p : Char × List Bool) : List Char :=
  [squote, p.1, squote, ':', ' ', squote] ++
    (p.2.map fun b => if b then '1' else '0') ++ [squote]

def entriesChars : List (Char × List Bool) → List Char
  | [] => []
  | [p] => entryChars p
  | p :: q :: rest => entryChars p ++ [',', ' '] ++ entriesChars (q :: rest)

/-- `str(huffman_codes)`: the Python dict repr, an opening brace, the
comma-space-separated entries, and a closing brace (bare braces when
the mapping is empty). -/
def strOfCodes (codes : List (Char × List Bool)) : List Char :=
  lbrace :: entriesChars codes ++ [rbrace]

/-- `.encode("utf-8")` of one character (by code point). -/
def utf8EncodeChar (n : Nat) : List Nat :=
  if n < 128 then [n]
  else if n < 2048 then [192 + n / 64, 128 + n % 64]
  else if n < 65536 then [224 + n / 4096, 128 + n / 64 % 64, 128 + n % 64]
  else [240 + n / 262144, 128 + n / 4096 % 64, 128 + n / 64 % 64, 128 + n % 64]

def utf8Encode (s : List Char) : List Nat :=
  s.flatMap fun c => utf8EncodeChar c.toNat

def charOfNat? (n : Nat) : Option Char :=
  if h : n.isValidChar then some (Char.ofNatAux n h) else none

/-- `.decode("utf-8")`: strict decoding; a sequence is accepted only
when re-encoding the code point reproduces the consumed bytes (this
rejects overlong forms and stray continuation bytes, as CPython does). -/
def utf8Decode : List Nat → Option (List Char)
  | [] => some []
  | b :: rest =>
      if b < 128 then do
        pure ((← charOfNat? b) :: (← utf8Decode rest))
      else if b < 224 then
        match rest with
        | b2 :: rest2 => do
            let cp := (b - 192) * 64 + (b2 - 128)
            let c ← charOfNat? cp
            if utf8EncodeChar cp = [b, b2] then
              pure (c :: (← utf8Decode rest2))
            else none
        | _ => none
      else if b < 240 then
        match rest with
        | b2 :: b3 :: rest3 => do
            let cp := (b - 224) * 4096 + (b2 - 128) * 64 + (b3 - 128)
            let c ← charOfNat? cp
            if utf8EncodeChar cp = [b, b2, b3] then
              pure (c :: (← utf8Decode rest3))
            else none
        | _ => none
      else
        match rest with
        | b2 :: b3 :: b4 :: rest4 => do
            let cp := (b - 240) * 262144 + (b2 - 128) * 4096 +
              (b3 - 128) * 64 + (b4 - 128)
            let c ← charOfNat? cp
            if utf8EncodeChar cp = [b, b2, b3, b4] then
              pure (c :: (← utf8Decode rest4))
            else none
        | _ => none

/-- `len(s).to_bytes(4, "big")`; the Python call raises `OverflowError`
for `n ≥ 2^32` (guarded at the call site). -/
def natToBytes4 (n : Nat) : List Nat :=
  [n / 16777216 % 256, n / 65536 % 256, n / 256 % 256, n % 256]

/-- `int.from_bytes(bs, "big")`. -/
def bytesToNat (bs : List Nat) : Nat :=
  bs.foldl (fun acc b => 256 * acc + b) 0

/-- Reads the repr-quoted code value up to its closing quote; only the
digits `0`/`1` may occur inside (anything else fails the parse). -/
def parseBitsStr : List Char → Option (List Bool × List Char)
  | [] => none
  | c :: rest =>
      if c = squote then some ([], rest)
      else if c = '0' then do
        let (bs, r) ← parseBitsStr rest
        pure (false :: bs, r)
      else if c = '1' then do
        let (bs, r) ← parseBitsStr rest
        pure (true :: bs, r)
      else none

/-- Entry list of the dict literal after the opening brace: quoted
single-character key, `: `, quoted code, separated by `, `, closed by
the final brace.  Fuel bounds the recursion by the input length. -/
def parseEntriesAux : Nat → List Char → Option (List (Char × List Bool))
  | 0, _ => none
  | fuel + 1, q1 :: k :: q2 :: co :: sp :: rest0 =>
      if q1 = squote ∧ q2 = squote ∧ co = ':' ∧ sp = ' ' then
        match rest0 with
        | q3 :: rest =>
            if q3 = squote then do
              let (bits, r) ← parseBitsStr rest
              match r with
              | [rb] => if rb = rbrace then pure [(k, bits)] else none
              | c1 :: c2 :: r2 =>
                  if c1 = ',' ∧ c2 = ' ' then do
                    pure ((k, bits) :: (← parseEntriesAux fuel r2))
                  else none
              | _ => none
            else none
        | _ => none
      else none
  | _, _ => none

/-- `ast.literal_eval(huffman_codes_str)` restricted to the dict
literals `str` emits for a `char -> bit-string` mapping (the only
containers the program writes); anything else fails (`none`), as
`literal_eval` raises on malformed input. -/
def parseCodes (s : List Char) : Option (List (Char × List Bool)) :=
  match s with
  | [] => none
  | lb :: rest =>
      if lb = lbrace then
        if rest = [rbrace] then some []
        else parseEntriesAux rest.length rest
      else none

/-- `bin(n)[2:]` for `n > 0` (empty for 0); the fuel (one halving per
step, so any fuel `≥ n` is enough) only bounds the recursion. -/
def binDigitsAux : Nat → Nat → List Bool
  | _, 0 => []
  | 0, _ + 1 => []
  | fuel + 1, n + 1 =>
      binDigitsAux fuel ((n + 1) / 2) ++ [decide ((n + 1) % 2 = 1)]

/-- `bin(byte)[2:].rjust(8, "0")`: the binary digits of the byte,
left-padded with zeros to (at least) 8 bits. -/
def byteBits (n : Nat) : List Bool :=
  let s := if n = 0 then [false] else binDigitsAux n n
  List.replicate (8 - s.length) false ++ s

/-- `compress_file`, as the pure text-to-container transformation
(file I/O stripped): frequency count, tree, code table, encoding,
padding, packing, then the 4-byte big-endian table length, the
utf-8 table repr, and the packed payload.  `to_bytes(4)` raises
`OverflowError` at `2^32` (`none`). -/
def compress_file (text : List Char) : Option (List Nat) :=
  match build_huffman_tree (build_frequency_dict text) with
  | none => none
  | some huffman_tree =>
    match encode_text text (build_huffman_codes huffman_tree []) with
    | none => none
    | some encoded_text =>
      match get_byte_array (pad_encoded_text encoded_text) with
      | none => none
      | some byte_array =>
        if (utf8Encode (strOfCodes (build_huffman_codes huffman_tree []))).length <
            4294967296 then
          some (natToBytes4
              (utf8Encode (strOfCodes (build_huffman_codes huffman_tree []))).length ++
            utf8Encode (strOfCodes (build_huffman_codes huffman_tree [])) ++ byte_array)
        else none

/-- The container split performed by `decompress_file`: read the first
4 bytes as the big-endian table length, take that many bytes as the
table, and treat everything after as the packed payload. -/
def splitContainer (input : List Nat) : List Nat × List Nat :=
  ((input.drop 4).take (bytesToNat (input.take 4)),
    (input.drop 4).drop (bytesToNat (input.take 4)))

/-- `decompress_file`, as the pure container-to-text transformation:
split the container, utf-8 decode and `literal_eval` the table,
re-expand payload bytes to bits, strip padding, decode. -/
def decompress_file (input : List Nat) : Option (List Char) :=
  match utf8Decode (splitContainer input).1 with
  | none => none
  | some huffman_codes_str =>
    match parseCodes huffman_codes_str with
    | none => none
    | some huffman_codes =>
      match remove_padding ((splitContainer input).2.flatMap byteBits) with
      | none => none
      | some encoded_text => some (decode_text encoded_text huffman_codes)

/-- Leaf symbols of a tree in traversal order (specification-side
measure used by the prefix-freedom development). -/
def HuffmanNode.leafChars : HuffmanNode → List Char
  | .leaf c _ => [c]
  | .internal _ l r => l.leafChars ++ r.leafChars

/-- All leaf symbols of the trees of a priority-queue state. -/
def poolChars (l : List HuffmanNode) : List Char :=
  l.flatMap HuffmanNode.leafChars

theorem toBits8_length (n : Nat) : (toBits8 n).length = 8 := by
  simp [toBits8]

set_option maxRecDepth 4096 in
theorem bitsToNat_toBits8 (n : Nat) (h : n < 256) :
    bitsToNat (toBits8 n) = n := by
  have hall : ∀ m : Fin 256, bitsToNat (toBits8 m.val) = m.val := by decide
  exact hall ⟨n, h⟩

theorem pad_encoded_text_length (s : List Bool) :
    (pad_encoded_text s).length = 8 + s.length + (8 - s.length % 8) := by
  simp [pad_encoded_text, toBits8]
  omega

/-- C4: `pad_encoded_text` appends exactly `8 - (len s % 8)` filler
bits — a count between 1 and 8, equal to 8 exactly when the length is
already a multiple of 8 — and prepends that count as an 8-bit field,
so the result has length `8 + len s + (8 - len s % 8)`. -/
theorem pad_encoded_text_spec (s : List Bool) :
    pad_encoded_text s =
      toBits8 (8 - s.length % 8) ++ s ++
        List.replicate (8 - s.length % 8) false ∧
    1 ≤ 8 - s.length % 8 ∧ 8 - s.length % 8 ≤ 8 ∧
    (8 - s.length % 8 = 8 ↔ s.length % 8 = 0) ∧
    (pad_encoded_text s).length = 8 + s.length + (8 - s.length % 8) := by
  have hm : s.length % 8 < 8 := Nat.mod_lt _ (by norm_num)
  exact ⟨rfl, by omega, by omega, by omega, pad_encoded_text_length s⟩

/-- C5: unpacking inverts packing — reading the leading 8 bits of a
packed bit-string as the padding count and stripping that many
trailing bits recovers the original code-concatenation bit-string. -/
theorem remove_padding_inverts_pad (s : List Bool) :
    remove_padding (pad_encoded_text s) = some s := by
  have hm : s.length % 8 < 8 := Nat.mod_lt _ (by norm_num)
  have hpad : pad_encoded_text s =
      toBits8 (8 - s.length % 8) ++
        (s ++ List.replicate (8 - s.length % 8) false) := by
    simp [pad_encoded_text]
  rw [hpad]
  have hne : (toBits8 (8 - s.length % 8) ++
      (s ++ List.replicate (8 - s.length % 8) false)).isEmpty = false := by
    have h8 := toBits8_length (8 - s.length % 8)
    cases hc : toBits8 (8 - s.length % 8) with
    | nil => rw [hc] at h8; simp at h8
    | cons a t => simp [hc]
  rw [remove_padding, hne]
  simp only [Bool.false_eq_true, if_false]
  rw [List.take_left' (toBits8_length _), List.drop_left' (toBits8_length _),
    bitsToNat_toBits8 _ (by omega)]
  have hk0 : ¬ (8 - s.length % 8 = 0) := by omega
  rw [if_neg hk0]
  rw [List.length_append, List.length_replicate, Nat.add_sub_cancel,
    List.take_left]

/-- C9: the defensive length check of `get_byte_array` is unreachable
on any output of the packer — `get_byte_array` always succeeds on
`pad_encoded_text s` — and it fails exactly when the input length is
not a multiple of 8. -/
theorem get_byte_array_safety (s bits : List Bool) :
    (get_byte_array (pad_encoded_text s)).isSome = true ∧
    (get_byte_array bits = none ↔ bits.length % 8 ≠ 0) := by
  constructor
  · have h := pad_encoded_text_length s
    have hm : s.length % 8 < 8 := Nat.mod_lt _ (by norm_num)
    have h8 : (pad_encoded_text s).length % 8 = 0 := by omega
    simp [get_byte_array, h8]
  · unfold get_byte_array
    split
    · simp [*]
    · simp [*]

/-- C8: empty input yields an empty frequency table, and tree
construction on the empty table fails (the final `priority_queue[0]`
indexes an empty list) instead of returning a tree, so compression of
empty input fails rather than succeeding silently. -/
theorem empty_input_tree_construction_fails :
    build_frequency_dict [] = [] ∧ build_huffman_tree [] = none ∧
    compress_file [] = none :=
  ⟨rfl, rfl, rfl⟩

/-- C2 (counter-evaluation): a single-entry frequency table does yield
the single-leaf tree with no merge, but `build_huffman_codes` assigns
that leaf the EMPTY bit-string (the initial accumulator), not a
non-empty minimum-length code as the claim states. -/
theorem single_entry_leaf_empty_code :
    build_huffman_tree [('a', 5)] = some (HuffmanNode.leaf 'a' 5) ∧
    build_huffman_codes (HuffmanNode.leaf 'a' 5) [] = [('a', [])] :=
  ⟨rfl, rfl⟩

/-- C1 (counter-evaluation at the failing input): compressing the
single-character text `a` and decompressing the result yields the
empty text, not the original — the single leaf gets the empty code, so
nothing of the input survives the round trip. -/
theorem roundtrip_fails_on_single_symbol :
    (compress_file ['a']).bind decompress_file = some [] ∧
    (compress_file ['a']).bind decompress_file ≠ some ['a'] := by
  constructor
  · rfl
  · decide

/-- C6 (counterexample): on input bit-string `1` with the table
mapping `a` to `0`, the scan ends with the non-empty, non-matching
candidate `1`, yet `decode_text` returns the empty decode normally —
no error is raised and the leftover bit is silently discarded. -/
theorem decode_text_silent_on_leftover :
    decodeAux [('a', [false])] [true] [] [] = ([], [true]) ∧
    revLookup [('a', [false])] [true] = none ∧
    decode_text [true] [('a', [false])] = [] :=
  ⟨rfl, rfl, rfl⟩

theorem decodeAux_append (codes : List (Char × List Bool)) :
    ∀ (s t cur : List Bool) (out : List Char),
      decodeAux codes (s ++ t) cur out =
        decodeAux codes t (decodeAux codes s cur out).2
          (decodeAux codes s cur out).1 := by
  intro s
  induction s with
  | nil => intro t cur out; rfl
  | cons b s' ih =>
    intro t cur out
    simp only [List.cons_append, decodeAux]
    cases revLookup codes (cur ++ [b]) with
    | some c => exact ih t [] (out ++ [c])
    | none => exact ih t (cur ++ [b]) out

theorem decodeAux_no_match (codes : List (Char × List Bool)) :
    ∀ (junk cur : List Bool) (out : List Char),
      (∀ i, i < junk.length → revLookup codes (cur ++ junk.take (i + 1)) = none) →
      decodeAux codes junk cur out = (out, cur ++ junk) := by
  intro junk
  induction junk with
  | nil => intro cur out _; simp [decodeAux]
  | cons j rest ih =>
    intro cur out h
    have h0 := h 0 (by simp)
    simp only [List.take_succ_cons, List.take_zero] at h0
    simp only [decodeAux, h0]
    rw [ih (cur ++ [j]) out ?_]
    · simp
    · intro i hi
      have hs := h (i + 1) (by simp; omega)
      simpa [List.append_assoc] using hs

/-- C6 (amended): when the end of the bit-string is reached while the
accumulated candidate matches no table entry, `decode_text` raises no
error — it silently discards the leftover unmatched bits, returning
exactly what it returns without them. -/
theorem decode_text_discards_trailing_garbage
    (codes : List (Char × List Bool)) (s junk : List Bool)
    (out : List Char) (cur : List Bool)
    (h : decodeAux codes s [] [] = (out, cur))
    (hnm : ∀ i, i < junk.length →
      revLookup codes (cur ++ junk.take (i + 1)) = none) :
    decode_text (s ++ junk) codes = decode_text s codes := by
  unfold decode_text
  rw [decodeAux_append, h]
  rw [decodeAux_no_match codes junk cur out hnm]

/-- C6 witness: concrete instance of the amended claim — the table
maps `a` to `0`; after decoding `0` the candidate is empty, the junk
bit `1` never matches, and the decode of `01` equals the decode of
`0`. -/
theorem decode_text_discards_trailing_garbage_witness :
    decodeAux [('a', [false])] [false] [] [] = (['a'], []) ∧
    decode_text ([false] ++ [true]) [('a', [false])] =
      decode_text [false] [('a', [false])] :=
  ⟨rfl, decode_text_discards_trailing_garbage [('a', [false])] [false] [true]
    ['a'] [] rfl (by
      intro i hi
      have h0 : i = 0 := by simpa using Nat.lt_one_iff.mp hi
      subst h0
      rfl)⟩

theorem huffLoop_leafChars :
    ∀ (fuel : Nat) (l : List HuffmanNode) (t : HuffmanNode),
      huffLoop fuel l = some t → t.leafChars.Perm (poolChars l) := by
  intro fuel
  induction fuel with
  | zero =>
    intro l t h
    cases l with
    | nil => simp [huffLoop] at h
    | cons a l' =>
      cases l' with
      | nil =>
        simp [huffLoop] at h
        subst h
        simp [poolChars]
      | cons b rest => simp [huffLoop] at h
  | succ fuel ih =>
    intro l t h
    cases l with
    | nil => simp [huffLoop] at h
    | cons a l' =>
      cases l' with
      | nil =>
        simp [huffLoop] at h
        subst h
        simp [poolChars]
      | cons b rest =>
        rw [huffLoop] at h
        have h1 := ih _ _ h
        refine h1.trans ?_
        have hp : (heappush rest
            (HuffmanNode.internal (a.freq + b.freq) a b)).Perm
            (HuffmanNode.internal (a.freq + b.freq) a b :: rest) :=
          List.perm_orderedInsert _ _ _
        have h2 := hp.flatMap_right HuffmanNode.leafChars
        have he : (HuffmanNode.internal (a.freq + b.freq) a b ::
            rest).flatMap HuffmanNode.leafChars =
            poolChars (a :: b :: rest) := by
          simp [poolChars, HuffmanNode.leafChars, List.append_assoc]
        rw [he] at h2
        exact h2

theorem flatMap_leaf_map (freq : List (Char × Nat)) :
    (freq.map fun p => HuffmanNode.leaf p.1 p.2).flatMap
      HuffmanNode.leafChars = freq.map Prod.fst := by
  induction freq with
  | nil => rfl
  | cons p rest ih => simp [HuffmanNode.leafChars, ih]

theorem build_huffman_tree_leafChars (freq : List (Char × Nat))
    (t : HuffmanNode) (h : build_huffman_tree freq = some t) :
    t.leafChars.Perm (freq.map Prod.fst) := by
  unfold build_huffman_tree at h
  have h1 := huffLoop_leafChars _ _ _ h
  refine h1.trans ?_
  have hp := List.perm_insertionSort nodeLE
    (freq.map fun p => HuffmanNode.leaf p.1 p.2)
  have h2 := hp.flatMap_right HuffmanNode.leafChars
  rw [flatMap_leaf_map] at h2
  exact h2

theorem build_huffman_codes_shape :
    ∀ (t : HuffmanNode) (pre : List Bool) (c : Char) (s : List Bool),
      (c, s) ∈ build_huffman_codes t pre → ∃ p, s = pre ++ p := by
  intro t
  induction t with
  | leaf c0 f =>
    intro pre c s h
    simp [build_huffman_codes] at h
    exact ⟨[], by simp [h.2]⟩
  | internal f l r ihl ihr =>
    intro pre c s h
    simp only [build_huffman_codes, List.mem_append] at h
    rcases h with h | h
    · obtain ⟨p, hp⟩ := ihl _ _ _ h
      exact ⟨false :: p, by simp [hp, List.append_assoc]⟩
    · obtain ⟨p, hp⟩ := ihr _ _ _ h
      exact ⟨true :: p, by simp [hp, List.append_assoc]⟩

theorem build_huffman_codes_prefix_free_aux :
    ∀ (t : HuffmanNode) (pre : List Bool), t.leafChars.Nodup →
      ∀ (c1 : Char) (s1 : List Bool) (c2 : Char) (s2 : List Bool),
        (c1, s1) ∈ build_huffman_codes t pre →
        (c2, s2) ∈ build_huffman_codes t pre →
        c1 ≠ c2 → ¬ (s1 <+: s2) := by
  intro t
  induction t with
  | leaf c0 f =>
    intro pre _ c1 s1 c2 s2 h1 h2 hne
    simp [build_huffman_codes] at h1 h2
    exact absurd (h1.1.trans h2.1.symm) hne
  | internal f l r ihl ihr =>
    intro pre hnd c1 s1 c2 s2 h1 h2 hne
    have hnds := List.nodup_append.mp
      (by simpa [HuffmanNode.leafChars] using hnd)
    simp only [build_huffman_codes, List.mem_append] at h1 h2
    rcases h1 with h1 | h1 <;> rcases h2 with h2 | h2
    · exact ihl _ hnds.1 _ _ _ _ h1 h2 hne
    · obtain ⟨p1, hp1⟩ := build_huffman_codes_shape l _ _ _ h1
      obtain ⟨p2, hp2⟩ := build_huffman_codes_shape r _ _ _ h2
      rintro ⟨u, hu⟩
      rw [hp1, hp2] at hu
      simp [List.append_assoc] at hu
    · obtain ⟨p1, hp1⟩ := build_huffman_codes_shape r _ _ _ h1
      obtain ⟨p2, hp2⟩ := build_huffman_codes_shape l _ _ _ h2
      rintro ⟨u, hu⟩
      rw [hp1, hp2] at hu
      simp [List.append_assoc] at hu
    · exact ihr _ hnds.2.1 _ _ _ _ h1 h2 hne

/-- C3: for every frequency table with distinct symbols on which tree
construction succeeds, the code table from `build_huffman_codes` on
the tree from `build_huffman_tree` is prefix-free — the code of no
symbol is a prefix of the code of a different symbol. -/
theorem huffman_codes_prefix_free (freq : List (Char × Nat))
    (hnd : (freq.map Prod.fst).Nodup) (t : HuffmanNode)
    (ht : build_huffman_tree freq = some t) :
    ∀ (c1 : Char) (s1 : List Bool) (c2 : Char) (s2 : List Bool),
      (c1, s1) ∈ build_huffman_codes t [] →
      (c2, s2) ∈ build_huffman_codes t [] →
      c1 ≠ c2 → ¬ (s1 <+: s2) := by
  have hperm := build_huffman_tree_leafChars freq t ht
  have hnodup : t.leafChars.Nodup := hperm.nodup_iff.mpr hnd
  exact build_huffman_codes_prefix_free_aux t [] hnodup

/-- C3 witness: on the table mapping `a` to 1 and `b` to 2, the tree
is the two-leaf merge, `a` receives code `0`, `b` receives code `1`,
and the theorem yields that `0` is not a prefix of `1`. -/
theorem huffman_codes_prefix_free_witness :
    (([('a', 1), ('b', 2)].map Prod.fst).Nodup) ∧
    build_huffman_tree [('a', 1), ('b', 2)] =
      some (HuffmanNode.internal 3 (HuffmanNode.leaf 'a' 1)
        (HuffmanNode.leaf 'b' 2)) ∧
    ¬ ([false] <+: [true]) :=
  ⟨by decide, rfl,
    huffman_codes_prefix_free [('a', 1), ('b', 2)] (by decide)
      (HuffmanNode.internal 3 (HuffmanNode.leaf 'a' 1)
        (HuffmanNode.leaf 'b' 2)) rfl
      'a' [false] 'b' [true] (by decide) (by decide) (by decide)⟩

theorem bytesToNat_natToBytes4 (n : Nat) (h : n < 4294967296) :
    bytesToNat (natToBytes4 n) = n := by
  simp [bytesToNat, natToBytes4]
  omega

theorem splitContainer_build (tbl p : List Nat)
    (h : tbl.length < 4294967296) :
    splitContainer (natToBytes4 tbl.length ++ tbl ++ p) = (tbl, p) := by
  have h4 : (natToBytes4 tbl.length).length = 4 := rfl
  unfold splitContainer
  rw [List.append_assoc, List.take_left' h4, List.drop_left' h4,
    bytesToNat_natToBytes4 _ h, List.take_left, List.drop_left]

/-- C7: the compressed container is exactly the 4-byte big-endian
byte length of the serialized code table (the utf-8 bytes of the dict
repr of the code table of the built tree), followed by exactly those
table bytes, followed by the packed payload bytes from the bit packer;
the deserializer reads the 4-byte length back, takes exactly those
table bytes as the table, and treats all remaining bytes as the
payload. -/
theorem container_layout (text : List Char) (t : HuffmanNode)
    (encoded_text : List Bool) (byte_array : List Nat) (out : List Nat)
    (htree : build_huffman_tree (build_frequency_dict text) = some t)
    (henc : encode_text text (build_huffman_codes t []) = some encoded_text)
    (hbytes : get_byte_array (pad_encoded_text encoded_text) = some byte_array)
    (h : compress_file text = some out) :
    out =
      natToBytes4
          (utf8Encode (strOfCodes (build_huffman_codes t []))).length ++
        utf8Encode (strOfCodes (build_huffman_codes t [])) ++ byte_array ∧
    splitContainer out =
      (utf8Encode (strOfCodes (build_huffman_codes t [])), byte_array) := by
  unfold compress_file at h
  simp only [htree, henc, hbytes] at h
  split at h
  · have hout := Option.some.inj h
    refine ⟨hout.symm, ?_⟩
    rw [← hout]
    exact splitContainer_build _ _ (by assumption)
  · exact absurd h (by simp)

/-- C7 witness: the container compressed from the two-character text
`ab` is the 4-byte length 20, the 20 utf-8 bytes of the table repr,
and the packed payload bytes 6 and 64, and the deserializer splits it
back into exactly those table bytes and that payload. -/
theorem container_layout_witness :
    compress_file ['a', 'b'] = some [0, 0, 0, 20, 123, 39, 97, 39, 58, 32,
      39, 48, 39, 44, 32, 39, 98, 39, 58, 32, 39, 49, 39, 125, 6, 64] ∧
    ([0, 0, 0, 20, 123, 39, 97, 39, 58, 32, 39, 48, 39, 44, 32, 39, 98, 39,
        58, 32, 39, 49, 39, 125, 6, 64] =
      natToBytes4
          (utf8Encode (strOfCodes (build_huffman_codes
            (HuffmanNode.internal 2 (HuffmanNode.leaf 'a' 1)
              (HuffmanNode.leaf 'b' 1)) []))).length ++
        utf8Encode (strOfCodes (build_huffman_codes
          (HuffmanNode.internal 2 (HuffmanNode.leaf 'a' 1)
            (HuffmanNode.leaf 'b' 1)) [])) ++ [6, 64] ∧
    splitContainer [0, 0, 0, 20, 123, 39, 97, 39, 58, 32, 39, 48, 39, 44,
        32, 39, 98, 39, 58, 32, 39, 49, 39, 125, 6, 64] =
      (utf8Encode (strOfCodes (build_huffman_codes
        (HuffmanNode.internal 2 (HuffmanNode.leaf 'a' 1)
          (HuffmanNode.leaf 'b' 1)) [])), [6, 64])) :=
  ⟨rfl,
    container_layout ['a', 'b']
      (HuffmanNode.internal 2 (HuffmanNode.leaf 'a' 1)
        (HuffmanNode.leaf 'b' 1))
      [false, true] [6, 64] _ rfl rfl rfl rfl⟩

/-- C10: a padding-count field of 0 makes `remove_padding` return the
empty bit-string (the Python slice with a zero negative bound), so a
container whose padding-count byte is 0 decompresses to empty output,
with no error, regardless of the payload bits. -/
theorem zero_padding_count_empty_output (padded : List Bool)
    (tbl payload : List Nat) (str : List Char)
    (codes : List (Char × List Bool))
    (hne : padded ≠ []) (hz : bitsToNat (padded.take 8) = 0)
    (hlt : tbl.length < 4294967296)
    (hdec : utf8Decode tbl = some str)
    (hparse : parseCodes str = some codes) :
    remove_padding padded = some [] ∧
    decompress_file (natToBytes4 tbl.length ++ tbl ++ (0 :: payload)) =
      some [] := by
  constructor
  · match padded, hne with
    | p :: rest, _ =>
      simp only [remove_padding, List.isEmpty_cons, Bool.false_eq_true,
        if_false, hz, if_pos]
  · unfold decompress_file
    rw [splitContainer_build tbl (0 :: payload) hlt]
    have hb0 : byteBits 0 = List.replicate 8 false := by decide
    have hflat : (0 :: payload).flatMap byteBits =
        List.replicate 8 false ++ payload.flatMap byteBits := by
      rw [List.flatMap_cons, hb0]
    have hrp : remove_padding ((0 :: payload).flatMap byteBits) =
        some [] := by
      rw [hflat]
      have hne8 : (List.replicate 8 false ++
          payload.flatMap byteBits).isEmpty = false := by
        simp [List.isEmpty_iff]
      rw [remove_padding, hne8]
      simp only [Bool.false_eq_true, if_false]
      rw [List.take_left'
        (by simp : (List.replicate 8 false : List Bool).length = 8)]
      have hz8 : bitsToNat (List.replicate 8 false) = 0 := by decide
      rw [hz8, if_pos rfl]
    simp only [hdec, hparse, hrp]
    rfl

/-- C10 witness: a concrete container whose padding-count byte is 0 —
table mapping `a` to code `0`, payload bytes 0 and 255 — decompresses
to empty output, and the corresponding bit-level `remove_padding`
returns the empty bit-string. -/
theorem zero_padding_count_empty_output_witness :
    bitsToNat ((List.replicate 8 false ++ [true]).take 8) = 0 ∧
    (remove_padding (List.replicate 8 false ++ [true]) = some [] ∧
      decompress_file
        (natToBytes4 (utf8Encode (strOfCodes [('a', [false])])).length ++
          utf8Encode (strOfCodes [('a', [false])]) ++ (0 :: [255])) =
        some []) :=
  ⟨by decide,
    zero_padding_count_empty_output (List.replicate 8 false ++ [true])
      (utf8Encode (strOfCodes [('a', [false])])) [255]
      (strOfCodes [('a', [false])]) [('a', [false])]
      (by decide) (by decide) (by decide) (by decide) (by decide)⟩
